import Mathlib

/-!
Verification of the infinity-q message-queue service.

The development shallowly embeds the Rust sources:
  * `src/queue.rs`   — the `Lifo` delivery queue (pending / in-flight bookkeeping),
  * `src/resp_buffered_reader.rs` and `src/utils.rs` — the incremental RESP frame decoder,
  * `src/resp.rs`    — the command parser.

Modelling conventions:
  * `VecDeque<T>` is a `List` whose head is the deque front;
    `push_back` appends, `pop_front` takes the head, `back` is `getLast?`,
    `pop_back` is `dropLast`, `push_front` is `cons`.
  * Bytes (`u8`) are `Nat` values in `0..256`; only comparisons are performed on them.
  * `chrono::DateTime<Utc>` timestamps are `Int` milliseconds; `Utc::now()` becomes an
    explicit `now : Int` parameter threaded to the operations that call it.
  * Rust `while` loops become fuel-indexed structural recursions (the fuel is an upper
    bound on the iteration count, supplied at the wrapper), so every definition computes
    by kernel reduction.
  * Fallible Rust functions returning `Result<T, E>` become `Except E T`; methods that
    mutate `&mut self` and also return a `Result` become functions returning the result
    paired with the updated state (the state is updated even on the error path, exactly
    as the Rust code leaves `self` partially updated).
-/

namespace InfinityQ

/-- Embeds `Message` from `src/queue.rs`.  `attempt` is a `u8` in Rust; it is only ever
incremented under the guard `attempt < MAX_ATTEMPT` (with `MAX_ATTEMPT = 3`), so `Nat`
is a faithful model in every reachable state. -/
structure Message where
  body : String
  queue_url : String
  id : String
  attempt : Nat
deriving DecidableEq

/-- Embeds `InflightMessage` from `src/queue.rs`; `created_at` is the dispatch
timestamp in milliseconds. -/
structure InflightMessage where
  msg : Message
  complete : Bool
  created_at : Int
deriving DecidableEq

/-- Embeds the `Lifo` struct from `src/queue.rs`.  `queue` is the pending collection
(front at the list head), `in_flight` the dispatched-but-unresolved collection in
dispatch order (oldest at the list head). -/
structure Lifo where
  name : String
  in_flight_expiration_ms : Int
  queue : List Message
  in_flight : List InflightMessage
deriving DecidableEq

/-- Embeds `Lifo::MAX_ATTEMPT` (`const MAX_ATTEMPT: u8 = 3`). -/
def Lifo.MAX_ATTEMPT : Nat := 3

/-- Embeds `Lifo::create`. -/
def Lifo.create (name : String) : Lifo :=
  { name := name, in_flight_expiration_ms := 1000, queue := [], in_flight := [] }

/-- Embeds `Lifo::create_with_expiration`. -/
def Lifo.create_with_expiration (name : String) (in_flight_expiration_ms : Int) : Lifo :=
  { name := name, in_flight_expiration_ms := in_flight_expiration_ms,
    queue := [], in_flight := [] }

/-- Embeds `Lifo::message_expired`:
`msg.created_at + Duration::milliseconds(self.in_flight_expiration_ms) < Utc::now()`,
with `Utc::now()` passed in as `now`. -/
def Lifo.message_expired (q : Lifo) (now : Int) (m : InflightMessage) : Bool :=
  decide (m.created_at + q.in_flight_expiration_ms < now)

/-- Embeds `Lifo::add`: `self.queue.push_back(msg)`. -/
def Lifo.add (q : Lifo) (msg : Message) : Lifo :=
  { q with queue := q.queue ++ [msg] }

/-- Embeds `Lifo::show_in_flight`: the first `min cnt len` in-flight entries, oldest
first, without mutating the queue. -/
def Lifo.show_in_flight (q : Lifo) (cnt : Nat) : List InflightMessage :=
  q.in_flight.take (min cnt q.in_flight.length)

/-- Helper for `Lifo::complete`.  The Rust code computes
`position(|x| &x.msg.id == id)` and sets `complete = true` at that index; marking the
first entry whose id matches is the same operation expressed recursively. -/
def markComplete (id : String) : List InflightMessage → List InflightMessage
  | [] => []
  | x :: xs =>
    if x.msg.id = id then { x with complete := true } :: xs
    else x :: markComplete id xs

/-- Embeds `Lifo::complete`. -/
def Lifo.complete (q : Lifo) (id : String) : Lifo :=
  { q with in_flight := markComplete id q.in_flight }

/-- Fuel-indexed body of the `Lifo::sweep_in_flight` `while` loop.  Each iteration of
the Rust loop removes one element from `in_flight` (`pop_back` of a completed back
entry, or `pop_front` of the head when the back entry has expired) or breaks, so
`in_flight.length` iterations always suffice; the wrapper `sweepLoop` supplies exactly
that much fuel and the fuel-exhausted branch is unreachable.  Note the Rust code
inspects `self.in_flight.back()` (binding it to the misleadingly named `first_msg`)
but pops the *front* in the expired branch; the embedding reproduces this verbatim. -/
def sweepGo (e : Int) (now : Int) :
    Nat → List Message → List InflightMessage → List Message × List InflightMessage
  | 0, queue, inf => (queue, inf)
  | _ + 1, queue, [] => (queue, [])
  | fuel + 1, queue, first :: rest =>
    let back := (first :: rest).getLast (List.cons_ne_nil first rest)
    if back.complete then
      sweepGo e now fuel queue ((first :: rest).dropLast)
    else if decide (back.created_at + e < now) then
      if first.msg.attempt < Lifo.MAX_ATTEMPT then
        sweepGo e now fuel ({ first.msg with attempt := first.msg.attempt + 1 } :: queue) rest
      else
        sweepGo e now fuel queue rest
    else
      (queue, first :: rest)

/-- The `Lifo::sweep_in_flight` loop on a queue/in-flight pair. -/
def sweepLoop (e : Int) (now : Int) (queue : List Message) (inf : List InflightMessage) :
    List Message × List InflightMessage :=
  sweepGo e now inf.length queue inf

theorem sweepLoop_nil (e now : Int) (queue : List Message) :
    sweepLoop e now queue [] = (queue, []) := rfl

theorem sweepLoop_cons (e now : Int) (queue : List Message) (first : InflightMessage)
    (rest : List InflightMessage) :
    sweepLoop e now queue (first :: rest) =
      (let back := (first :: rest).getLast (List.cons_ne_nil first rest)
       if back.complete then
         sweepLoop e now queue ((first :: rest).dropLast)
       else if decide (back.created_at + e < now) then
         if first.msg.attempt < Lifo.MAX_ATTEMPT then
           sweepLoop e now ({ first.msg with attempt := first.msg.attempt + 1 } :: queue) rest
         else
           sweepLoop e now queue rest
       else
         (queue, first :: rest)) := by
  show sweepGo e now (rest.length + 1) queue (first :: rest) = _
  rw [sweepGo]
  have hlen : ((first :: rest).dropLast).length = rest.length := by
    simp [List.length_dropLast]
  simp only [sweepLoop, hlen]

/-- Embeds `Lifo::sweep_in_flight` (`Utc::now()` passed in as `now`). -/
def Lifo.sweep_in_flight (q : Lifo) (now : Int) : Lifo :=
  let p := sweepLoop q.in_flight_expiration_ms now q.queue q.in_flight
  { q with queue := p.1, in_flight := p.2 }

/-- The drain loop of `Lifo::pop`: repeatedly `pop_front` from `queue`, pushing a fresh
`InflightMessage { msg, complete: false, created_at: now }` to the back of `in_flight`
and collecting a copy of the message, until the count is exhausted or `queue` is empty.
Returns (popped messages in order, remaining queue, new in_flight). -/
def popLoop (now : Int) :
    Nat → List Message → List InflightMessage →
    List Message × List Message × List InflightMessage
  | 0, queue, inf => ([], queue, inf)
  | _ + 1, [], inf => ([], [], inf)
  | n + 1, msg :: rest, inf =>
    let r := popLoop now n rest (inf ++ [{ msg := msg, complete := false, created_at := now }])
    (msg :: r.1, r.2.1, r.2.2)

/-- Embeds `Lifo::pop`: sweep first, then drain up to `cnt` pending messages into
`in_flight`. -/
def Lifo.pop (q : Lifo) (cnt : Nat) (now : Int) : List Message × Lifo :=
  let qs := q.sweep_in_flight now
  let r := popLoop now cnt qs.queue qs.in_flight
  (r.1, { qs with queue := r.2.1, in_flight := r.2.2 })

/-! ### Supporting lemmas about the queue operations -/

theorem markComplete_eq_self (id : String) (l : List InflightMessage)
    (h : ∀ x ∈ l, x.msg.id ≠ id) : markComplete id l = l := by
  induction l with
  | nil => rfl
  | cons x xs ih =>
    simp only [markComplete]
    rw [if_neg (h x (List.mem_cons_self x xs))]
    rw [ih (fun y hy => h y (List.mem_cons_of_mem x hy))]

theorem popLoop_length_le (t : Int) (cnt : Nat) (queue : List Message)
    (inf : List InflightMessage) : (popLoop t cnt queue inf).1.length ≤ cnt := by
  induction cnt generalizing queue inf with
  | zero => simp [popLoop]
  | succ n ih =>
    cases queue with
    | nil => simp [popLoop]
    | cons m rest =>
      simp only [popLoop, List.length_cons]
      exact Nat.succ_le_succ (ih rest _)

theorem popLoop_nil_queue (t : Int) (cnt : Nat) (inf : List InflightMessage) :
    (popLoop t cnt [] inf).1 = [] := by
  cases cnt <;> rfl

theorem popLoop_drain (t : Int) (ms : List Message) (inf : List InflightMessage) :
    popLoop t ms.length ms inf =
      (ms, [], inf ++ ms.map (fun m => { msg := m, complete := false, created_at := t })) := by
  induction ms generalizing inf with
  | nil => simp [popLoop]
  | cons m rest ih =>
    simp only [List.length_cons, popLoop, ih, List.map_cons]
    simp

/-- The requeue step of the sweep: what one expired head entry contributes to
`pending` (requeue with incremented attempt below the limit, drop otherwise). -/
def requeueStep (queue : List Message) (x : InflightMessage) : List Message :=
  if x.msg.attempt < Lifo.MAX_ATTEMPT then
    { x.msg with attempt := x.msg.attempt + 1 } :: queue
  else queue

theorem sweepLoop_all_expired (e now : Int) (inf : List InflightMessage)
    (hc : ∀ x ∈ inf, x.complete = false) (hx : ∀ x ∈ inf, x.created_at + e < now) :
    ∀ queue, sweepLoop e now queue inf = (inf.foldl requeueStep queue, []) := by
  induction inf with
  | nil => intro queue; simp [sweepLoop_nil]
  | cons f rest ih =>
    intro queue
    rw [sweepLoop_cons]
    have hmem := List.getLast_mem (List.cons_ne_nil f rest)
    rw [if_neg (by simp [hc _ hmem])]
    rw [if_pos (by simpa using hx _ hmem)]
    have ihr := ih (fun x hx2 => hc x (List.mem_cons_of_mem f hx2))
      (fun x hx2 => hx x (List.mem_cons_of_mem f hx2))
    simp only [List.foldl_cons, requeueStep]
    split
    · exact ihr _
    · exact ihr _

theorem foldl_requeue_uniform (a : Nat) (ha : a < Lifo.MAX_ATTEMPT)
    (inf : List InflightMessage) (h : ∀ x ∈ inf, x.msg.attempt = a) :
    ∀ queue, inf.foldl requeueStep queue =
      (inf.map (fun x => { x.msg with attempt := a + 1 })).reverse ++ queue := by
  induction inf with
  | nil => intro queue; simp
  | cons f rest ih =>
    intro queue
    have hfa : f.msg.attempt = a := h f (List.mem_cons_self f rest)
    simp only [List.foldl_cons, requeueStep, hfa, if_pos ha, List.map_cons,
      List.reverse_cons]
    rw [ih (fun x hx => h x (List.mem_cons_of_mem f hx))]
    simp

theorem foldl_requeue_exhausted (inf : List InflightMessage)
    (h : ∀ x ∈ inf, ¬ x.msg.attempt < Lifo.MAX_ATTEMPT) :
    ∀ queue, inf.foldl requeueStep queue = queue := by
  induction inf with
  | nil => intro queue; rfl
  | cons f rest ih =>
    intro queue
    simp only [List.foldl_cons, requeueStep, if_neg (h f (List.mem_cons_self f rest))]
    exact ih (fun x hx => h x (List.mem_cons_of_mem f hx)) queue

/-- One round of the redelivery scenario: dispatch every pending message
(`pop(pending.len())` at time `t`), then sweep at time `tSweep`. -/
def dispatchSweepCycle (q : Lifo) (t tSweep : Int) : Lifo :=
  ((q.pop q.queue.length t).2).sweep_in_flight tSweep

theorem cycle_requeue (n : String) (e t t2 : Int) (ms : List Message) (a : Nat)
    (ha : a < Lifo.MAX_ATTEMPT) (hms : ∀ m ∈ ms, m.attempt = a) (ht : t + e < t2) :
    dispatchSweepCycle ⟨n, e, ms, []⟩ t t2 =
      ⟨n, e, (ms.map (fun m => { m with attempt := a + 1 })).reverse, []⟩ := by
  simp only [dispatchSweepCycle, Lifo.pop, Lifo.sweep_in_flight, sweepLoop_nil]
  simp only [popLoop_drain, List.nil_append]
  rw [sweepLoop_all_expired e t2 _
    (by intro x hx; simp only [List.mem_map] at hx; obtain ⟨m, _, rfl⟩ := hx; rfl)
    (by intro x hx; simp only [List.mem_map] at hx; obtain ⟨m, _, rfl⟩ := hx; simpa using ht)]
  rw [foldl_requeue_uniform a ha _
    (by intro x hx; simp only [List.mem_map] at hx; obtain ⟨m, hm, rfl⟩ := hx
        exact hms m hm)]
  simp [List.map_map, Function.comp]

theorem cycle_drop (n : String) (e t t2 : Int) (ms : List Message)
    (hms : ∀ m ∈ ms, ¬ m.attempt < Lifo.MAX_ATTEMPT) (ht : t + e < t2) :
    dispatchSweepCycle ⟨n, e, ms, []⟩ t t2 = ⟨n, e, [], []⟩ := by
  simp only [dispatchSweepCycle, Lifo.pop, Lifo.sweep_in_flight, sweepLoop_nil]
  simp only [popLoop_drain, List.nil_append]
  rw [sweepLoop_all_expired e t2 _
    (by intro x hx; simp only [List.mem_map] at hx; obtain ⟨m, _, rfl⟩ := hx; rfl)
    (by intro x hx; simp only [List.mem_map] at hx; obtain ⟨m, _, rfl⟩ := hx; simpa using ht)]
  rw [foldl_requeue_exhausted _
    (by intro x hx; simp only [List.mem_map] at hx; obtain ⟨m, hm, rfl⟩ := hx
        exact hms m hm)]

/-! ### Operation traces and the ownership invariant -/

/-- The public operations of `Lifo` (the API surface named by the spec). -/
inductive QueueOp
  | add (m : Message)
  | pop (cnt : Nat) (t : Int)
  | complete (id : String)
  | sweep (t : Int)
  | show_in_flight (cnt : Nat)

/-- Applies one operation; `show_in_flight` takes `&self` and cannot mutate. -/
def applyOp (q : Lifo) : QueueOp → Lifo
  | .add m => q.add m
  | .pop cnt t => (q.pop cnt t).2
  | .complete id => q.complete id
  | .sweep t => q.sweep_in_flight t
  | .show_in_flight _ => q

def applyOps (q : Lifo) (ops : List QueueOp) : Lifo := ops.foldl applyOp q

def inflightIds (l : List InflightMessage) : List String := l.map (fun x => x.msg.id)

/-- All message ids held by the queue, pending first, then in-flight. -/
def idsOf (q : Lifo) : List String := q.queue.map Message.id ++ inflightIds q.in_flight

/-- Every `add` in the trace inserts an id not already held at that point (the data
model declares message ids unique). -/
def freshAdds : List QueueOp → Lifo → Bool
  | [], _ => true
  | QueueOp.add m :: rest, q =>
      !(decide (m.id ∈ idsOf q)) && freshAdds rest (applyOp q (QueueOp.add m))
  | op :: rest, q => freshAdds rest (applyOp q op)

theorem markComplete_ids (id : String) (l : List InflightMessage) :
    inflightIds (markComplete id l) = inflightIds l := by
  induction l with
  | nil => rfl
  | cons x xs ih =>
    simp only [markComplete]
    split
    · rfl
    · simp [inflightIds] at ih ⊢
      exact ih

theorem popLoop_ids_perm (t : Int) (cnt : Nat) (queue : List Message)
    (inf : List InflightMessage) :
    ((popLoop t cnt queue inf).2.1.map Message.id ++
        inflightIds (popLoop t cnt queue inf).2.2).Perm
      (queue.map Message.id ++ inflightIds inf) := by
  induction cnt generalizing queue inf with
  | zero => exact List.Perm.refl _
  | succ n ih =>
    cases queue with
    | nil => exact List.Perm.refl _
    | cons m rest =>
      have step := ih rest (inf ++ [{ msg := m, complete := false, created_at := t }])
      simp only [popLoop]
      refine step.trans ?_
      have : inflightIds (inf ++ [{ msg := m, complete := false, created_at := t }]) =
          inflightIds inf ++ [m.id] := by simp [inflightIds]
      rw [this, ← List.append_assoc]
      simpa using List.perm_append_singleton m.id (rest.map Message.id ++ inflightIds inf)

theorem sweepLoop_removed (e now : Int) :
    ∀ (n : Nat) (inf : List InflightMessage), inf.length ≤ n → ∀ queue : List Message,
      ∃ removed : List InflightMessage,
        (∀ x ∈ removed, x.complete = true ∨ Lifo.MAX_ATTEMPT ≤ x.msg.attempt) ∧
        (queue.map Message.id ++ inflightIds inf).Perm
          ((sweepLoop e now queue inf).1.map Message.id ++
            inflightIds (sweepLoop e now queue inf).2 ++
            removed.map (fun x => x.msg.id)) := by
  intro n
  induction n with
  | zero =>
    intro inf hlen queue
    have : inf = [] := List.length_eq_zero.mp (Nat.le_zero.mp hlen)
    subst this
    exact ⟨[], by simp, by simp [sweepLoop_nil]⟩
  | succ n ih =>
    intro inf hlen queue
    cases inf with
    | nil => exact ⟨[], by simp, by simp [sweepLoop_nil]⟩
    | cons f rest =>
      have hne := List.cons_ne_nil f rest
      by_cases hcomp : ((f :: rest).getLast hne).complete
      · have heq : sweepLoop e now queue (f :: rest) =
            sweepLoop e now queue ((f :: rest).dropLast) := by
          rw [sweepLoop_cons]
          simp [hcomp]
        have hdl : ((f :: rest).dropLast).length ≤ n := by
          simp only [List.length_dropLast, List.length_cons] at *
          omega
        obtain ⟨removed, hrc, hperm⟩ := ih ((f :: rest).dropLast) hdl queue
        refine ⟨(f :: rest).getLast hne :: removed, ?_, ?_⟩
        · intro x hx
          rcases List.mem_cons.mp hx with h | h
          · exact Or.inl (h ▸ hcomp)
          · exact hrc x h
        · rw [heq]
          have hsplit : inflightIds (f :: rest) =
              inflightIds ((f :: rest).dropLast) ++ [((f :: rest).getLast hne).msg.id] := by
            conv_lhs => rw [← List.dropLast_append_getLast hne]
            simp [inflightIds]
          rw [hsplit, ← List.append_assoc]
          refine (hperm.append_right _).trans ?_
          rw [List.append_assoc]
          refine List.Perm.append_left _ ?_
          simp
      · by_cases hP : ((f :: rest).getLast hne).created_at + e < now
        · have hrest : rest.length ≤ n := by
            simp only [List.length_cons] at hlen
            omega
          by_cases hatt : f.msg.attempt < Lifo.MAX_ATTEMPT
          · have heq : sweepLoop e now queue (f :: rest) =
                sweepLoop e now
                  ({ f.msg with attempt := f.msg.attempt + 1 } :: queue) rest := by
              rw [sweepLoop_cons]
              simp [hcomp, hP, hatt]
            obtain ⟨removed, hrc, hperm⟩ :=
              ih rest hrest ({ f.msg with attempt := f.msg.attempt + 1 } :: queue)
            refine ⟨removed, hrc, ?_⟩
            rw [heq]
            refine List.Perm.trans ?_ hperm
            show (queue.map Message.id ++ (f.msg.id :: inflightIds rest)).Perm _
            refine List.perm_middle.trans ?_
            simp only [List.map_cons]
            exact List.Perm.refl _
          · have heq : sweepLoop e now queue (f :: rest) = sweepLoop e now queue rest := by
              rw [sweepLoop_cons]
              simp [hcomp, hP, hatt]
            obtain ⟨removed, hrc, hperm⟩ := ih rest hrest queue
            refine ⟨f :: removed, ?_, ?_⟩
            · intro x hx
              rcases List.mem_cons.mp hx with h | h
              · exact Or.inr (h ▸ Nat.le_of_not_lt hatt)
              · exact hrc x h
            · rw [heq]
              show (queue.map Message.id ++ (f.msg.id :: inflightIds rest)).Perm _
              refine List.perm_middle.trans ?_
              refine ((hperm.cons f.msg.id).trans ?_)
              simp only [List.map_cons, ← List.append_assoc]
              exact List.perm_middle.symm
        · have heq : sweepLoop e now queue (f :: rest) = (queue, f :: rest) := by
            rw [sweepLoop_cons]
            simp [hcomp, hP]
          exact ⟨[], by simp, by rw [heq]; simp⟩

theorem sweep_removed (q : Lifo) (t : Int) :
    ∃ removed : List InflightMessage,
      (∀ x ∈ removed, x.complete = true ∨ Lifo.MAX_ATTEMPT ≤ x.msg.attempt) ∧
      (idsOf q).Perm (idsOf (q.sweep_in_flight t) ++ removed.map (fun x => x.msg.id)) := by
  obtain ⟨removed, hc, hp⟩ := sweepLoop_removed q.in_flight_expiration_ms t
    q.in_flight.length q.in_flight le_rfl q.queue
  refine ⟨removed, hc, ?_⟩
  simpa [idsOf, Lifo.sweep_in_flight, List.append_assoc] using hp

theorem pop_removed (q : Lifo) (cnt : Nat) (t : Int) :
    ∃ removed : List InflightMessage,
      (∀ x ∈ removed, x.complete = true ∨ Lifo.MAX_ATTEMPT ≤ x.msg.attempt) ∧
      (idsOf q).Perm (idsOf ((q.pop cnt t).2) ++ removed.map (fun x => x.msg.id)) := by
  obtain ⟨removed, hc, hp⟩ := sweep_removed q t
  refine ⟨removed, hc, hp.trans (List.Perm.append_right _ ?_)⟩
  exact (popLoop_ids_perm t cnt (q.sweep_in_flight t).queue (q.sweep_in_flight t).in_flight).symm

theorem add_ids_perm (q : Lifo) (m : Message) :
    (idsOf (q.add m)).Perm (m.id :: idsOf q) := by
  simp only [idsOf, Lifo.add, List.map_append, List.map_cons, List.map_nil,
    List.append_assoc, List.singleton_append]
  exact List.perm_middle

theorem complete_ids (q : Lifo) (id : String) : idsOf (q.complete id) = idsOf q := by
  simp [idsOf, Lifo.complete, markComplete_ids]

theorem applyOp_nodup (q : Lifo) (op : QueueOp)
    (hq : (idsOf q).Nodup)
    (hfresh : ∀ m, op = QueueOp.add m → m.id ∉ idsOf q) :
    (idsOf (applyOp q op)).Nodup := by
  cases op with
  | add m =>
    refine ((add_ids_perm q m).nodup_iff).mpr ?_
    exact List.nodup_cons.mpr ⟨hfresh m rfl, hq⟩
  | pop cnt t =>
    obtain ⟨removed, _, hp⟩ := pop_removed q cnt t
    have h2 := (hp.nodup_iff).mp hq
    exact (List.sublist_append_left _ _).nodup h2
  | complete id =>
    show (idsOf (q.complete id)).Nodup
    rw [complete_ids]
    exact hq
  | sweep t =>
    obtain ⟨removed, _, hp⟩ := sweep_removed q t
    have h2 := (hp.nodup_iff).mp hq
    exact (List.sublist_append_left _ _).nodup h2
  | show_in_flight cnt => exact hq

theorem applyOps_nodup : ∀ (ops : List QueueOp) (q : Lifo), freshAdds ops q = true →
    (idsOf q).Nodup → (idsOf (applyOps q ops)).Nodup := by
  intro ops
  induction ops with
  | nil => intro q _ hq; exact hq
  | cons op rest ih =>
    intro q hf hq
    have hstep : (idsOf (applyOp q op)).Nodup := by
      apply applyOp_nodup q op hq
      intro m hm
      subst hm
      simp only [freshAdds, Bool.and_eq_true, Bool.not_eq_true', decide_eq_false_iff_not] at hf
      exact hf.1
    have hrest : freshAdds rest (applyOp q op) = true := by
      cases op <;>
        simp only [freshAdds, Bool.and_eq_true, Bool.not_eq_true',
          decide_eq_false_iff_not] at hf <;>
        first
          | exact hf.2
          | exact hf
    show (idsOf (applyOps (applyOp q op) rest)).Nodup
    exact ih (applyOp q op) hrest hstep

/-! ### Concrete fixtures used by the claim theorems -/

def msgA : Message := { body := "payload-a", queue_url := "jobs", id := "A", attempt := 1 }
def msgB : Message := { body := "payload-b", queue_url := "jobs", id := "B", attempt := 1 }
def msgC : Message := { body := "payload-c", queue_url := "jobs", id := "C", attempt := 1 }

/-- A queue (visibility timeout 1000 ms) holding two in-flight entries dispatched at
time 0, whose head entry `A` has been acknowledged via `complete "A"` and whose back
entry `B` has not. -/
def ackedHeadQueue : Lifo :=
  ((((Lifo.create "jobs").add msgA).add msgB).pop 2 0).2.complete "A"

/-- A queue whose only in-flight entry is acknowledged, so a sweep mutates it. -/
def ackedOnlyQueue : Lifo :=
  { Lifo.create "jobs" with
    in_flight := [{ msg := msgA, complete := true, created_at := 0 }] }

/-! ### Claim theorems for the delivery queue -/

/-- Claim C1, behaviour of the code at the failing input.  The spec says the sweep
examines `in_flight` from its *head* and removes every acknowledged entry, so an
acknowledged message is removed on the next sweep regardless of the other entries.
The code instead inspects only the *back* entry each iteration
(`self.in_flight.back()`, bound to the misnamed `first_msg`): in `ackedHeadQueue`
the head entry `A` is acknowledged and unexpired, the back entry `B` is neither
acknowledged nor expired at time 5, and the sweep at time 5 removes nothing —
the acknowledged entry `A` survives, contradicting the claim. -/
theorem C1_sweep_back_scan_leaves_acknowledged_entry :
    ackedHeadQueue.sweep_in_flight 5 = ackedHeadQueue ∧
      ackedHeadQueue.in_flight.map (fun x => (x.msg.id, x.complete)) =
        [("A", true), ("B", false)] := by
  decide

/-- Claim C2: enqueue `A`, `B`, `C` in order into an empty queue with visibility
timeout `e`; `pop 2` at time `t0` returns `[A, B]` in order; after `complete B.id`
and a sweep at a time `t1` past the timeout, `A` is reinserted at the head of pending
with attempt `2`, `B` is removed permanently, pending is `[A, C]` and `in_flight` is
empty. -/
theorem C2_dispatch_ack_sweep_scenario (nm : String) (A B C : Message) (e t0 t1 : Int)
    (hA : A.attempt = 1) (hid : A.id ≠ B.id) (hexp : t0 + e < t1) :
    (((((Lifo.create_with_expiration nm e).add A).add B).add C).pop 2 t0).1 = [A, B] ∧
    (((((((Lifo.create_with_expiration nm e).add A).add B).add C).pop 2 t0).2.complete
        B.id).sweep_in_flight t1).queue = [{ A with attempt := 2 }, C] ∧
    (((((((Lifo.create_with_expiration nm e).add A).add B).add C).pop 2 t0).2.complete
        B.id).sweep_in_flight t1).in_flight = [] := by
  simp only [Lifo.create_with_expiration, Lifo.add, Lifo.pop, Lifo.sweep_in_flight,
    Lifo.complete, markComplete, popLoop, sweepLoop_nil, sweepLoop_cons,
    List.nil_append, List.cons_append, List.append_nil, List.singleton_append]
  rw [if_neg hid]
  simp only [if_pos rfl, if_true, List.append_eq, List.nil_append]
  simp only [sweepLoop_cons, List.getLast, List.dropLast, sweepLoop_nil]
  simp [hA, hexp, Lifo.MAX_ATTEMPT]

theorem C2_witness :
    (((((Lifo.create_with_expiration "jobs" 0).add msgA).add msgB).add msgC).pop 2 0).1 =
        [msgA, msgB] ∧
    (((((((Lifo.create_with_expiration "jobs" 0).add msgA).add msgB).add msgC).pop
        2 0).2.complete msgB.id).sweep_in_flight 1).queue =
          [{ msgA with attempt := 2 }, msgC] ∧
    (((((((Lifo.create_with_expiration "jobs" 0).add msgA).add msgB).add msgC).pop
        2 0).2.complete msgB.id).sweep_in_flight 1).in_flight = [] :=
  C2_dispatch_ack_sweep_scenario "jobs" msgA msgB msgC 0 0 1 rfl (by decide) (by decide)

/-- Claim C3: a queue with visibility timeout 0 holding `ms` pending messages, all at
attempt 1.  Each dispatch-all-then-sweep cycle moves every message back to pending
with its attempt incremented (cycle 1 requeues all of `ms` at attempt 2, cycle 2 at
attempt 3, each time with `in_flight` empty and `pending` of unchanged length), and
the `MAX_ATTEMPT`-th (third) cycle drops every message: both collections end empty.
No message is ever requeued with attempt exceeding `MAX_ATTEMPT = 3`. -/
theorem C3_visibility_zero_redelivery_cycles (nm : String) (ms : List Message)
    (t1 s1 t2 s2 t3 s3 : Int) (hms : ∀ m ∈ ms, m.attempt = 1)
    (h1 : t1 < s1) (h2 : t2 < s2) (h3 : t3 < s3) :
    ((dispatchSweepCycle ⟨nm, 0, ms, []⟩ t1 s1).queue =
        (ms.map (fun m => { m with attempt := 2 })).reverse ∧
      (dispatchSweepCycle ⟨nm, 0, ms, []⟩ t1 s1).queue.length = ms.length ∧
      (dispatchSweepCycle ⟨nm, 0, ms, []⟩ t1 s1).in_flight = []) ∧
    ((dispatchSweepCycle (dispatchSweepCycle ⟨nm, 0, ms, []⟩ t1 s1) t2 s2).queue =
        ms.map (fun m => { m with attempt := 3 }) ∧
      (dispatchSweepCycle (dispatchSweepCycle ⟨nm, 0, ms, []⟩ t1 s1) t2 s2).queue.length =
        ms.length ∧
      (dispatchSweepCycle (dispatchSweepCycle ⟨nm, 0, ms, []⟩ t1 s1) t2 s2).in_flight = []) ∧
    ((dispatchSweepCycle
        (dispatchSweepCycle (dispatchSweepCycle ⟨nm, 0, ms, []⟩ t1 s1) t2 s2) t3 s3).queue
          = [] ∧
      (dispatchSweepCycle
        (dispatchSweepCycle (dispatchSweepCycle ⟨nm, 0, ms, []⟩ t1 s1) t2 s2) t3 s3).in_flight
          = []) := by
  have e1 : dispatchSweepCycle ⟨nm, 0, ms, []⟩ t1 s1 =
      ⟨nm, 0, (ms.map (fun m => { m with attempt := 2 })).reverse, []⟩ :=
    cycle_requeue nm 0 t1 s1 ms 1 (by decide) hms (by simpa using h1)
  have hms2 : ∀ m ∈ (ms.map (fun m => { m with attempt := 2 })).reverse, m.attempt = 2 := by
    intro m hm
    simp only [List.mem_reverse, List.mem_map] at hm
    obtain ⟨x, _, rfl⟩ := hm
    rfl
  have e2 : dispatchSweepCycle
      ⟨nm, 0, (ms.map (fun m => { m with attempt := 2 })).reverse, []⟩ t2 s2 =
      ⟨nm, 0, ms.map (fun m => { m with attempt := 3 }), []⟩ := by
    rw [cycle_requeue nm 0 t2 s2 _ 2 (by decide) hms2 (by simpa using h2)]
    simp [List.map_reverse, List.map_map, Function.comp]
  have hms3 : ∀ m ∈ ms.map (fun m => { m with attempt := 3 }),
      ¬ m.attempt < Lifo.MAX_ATTEMPT := by
    intro m hm
    simp only [List.mem_map] at hm
    obtain ⟨x, _, rfl⟩ := hm
    simp [Lifo.MAX_ATTEMPT]
  have e3 : dispatchSweepCycle ⟨nm, 0, ms.map (fun m => { m with attempt := 3 }), []⟩ t3 s3 =
      ⟨nm, 0, [], []⟩ :=
    cycle_drop nm 0 t3 s3 _ hms3 (by simpa using h3)
  refine ⟨⟨?_, ?_, ?_⟩, ⟨?_, ?_, ?_⟩, ?_, ?_⟩ <;> simp only [e1, e2, e3] <;> simp

theorem C3_witness :
    ((dispatchSweepCycle ⟨"jobs", 0, [msgA, msgB], []⟩ 0 1).queue =
        ([msgA, msgB].map (fun m => { m with attempt := 2 })).reverse ∧
      (dispatchSweepCycle ⟨"jobs", 0, [msgA, msgB], []⟩ 0 1).queue.length =
        [msgA, msgB].length ∧
      (dispatchSweepCycle ⟨"jobs", 0, [msgA, msgB], []⟩ 0 1).in_flight = []) ∧
    ((dispatchSweepCycle (dispatchSweepCycle ⟨"jobs", 0, [msgA, msgB], []⟩ 0 1) 2 3).queue =
        [msgA, msgB].map (fun m => { m with attempt := 3 }) ∧
      (dispatchSweepCycle (dispatchSweepCycle ⟨"jobs", 0, [msgA, msgB], []⟩ 0 1) 2 3).queue.length
          = [msgA, msgB].length ∧
      (dispatchSweepCycle
        (dispatchSweepCycle ⟨"jobs", 0, [msgA, msgB], []⟩ 0 1) 2 3).in_flight = []) ∧
    ((dispatchSweepCycle
        (dispatchSweepCycle (dispatchSweepCycle ⟨"jobs", 0, [msgA, msgB], []⟩ 0 1) 2 3)
          4 5).queue = [] ∧
      (dispatchSweepCycle
        (dispatchSweepCycle (dispatchSweepCycle ⟨"jobs", 0, [msgA, msgB], []⟩ 0 1) 2 3)
          4 5).in_flight = []) :=
  C3_visibility_zero_redelivery_cycles "jobs" [msgA, msgB] 0 1 2 3 4 5
    (by decide) (by decide) (by decide) (by decide)

/-- Claim C8: acknowledging an id with no matching in-flight entry returns normally
and changes nothing; dispatching never fails — `pop` returns at most `cnt` messages,
and on a fully empty queue it returns the empty vector. -/
theorem C8_unknown_ack_and_empty_dispatch_are_noops (q : Lifo) (id : String)
    (cnt : Nat) (t : Int) (h : ∀ x ∈ q.in_flight, x.msg.id ≠ id) :
    q.complete id = q ∧ (q.pop cnt t).1.length ≤ cnt ∧
      (q.queue = [] → q.in_flight = [] → (q.pop cnt t).1 = []) := by
  refine ⟨?_, ?_, ?_⟩
  · show ({ q with in_flight := markComplete id q.in_flight }) = q
    rw [markComplete_eq_self id q.in_flight h]
  · exact popLoop_length_le t cnt _ _
  · intro hq hf
    obtain ⟨nm, ex, qs, fl⟩ := q
    simp only at hq hf
    subst hq; subst hf
    show (popLoop t cnt [] []).1 = []
    exact popLoop_nil_queue t cnt []

theorem C8_witness :
    ackedOnlyQueue.complete "Z" = ackedOnlyQueue ∧
      (ackedOnlyQueue.pop 3 9).1.length ≤ 3 ∧
      (ackedOnlyQueue.queue = [] → ackedOnlyQueue.in_flight = [] →
        (ackedOnlyQueue.pop 3 9).1 = []) :=
  C8_unknown_ack_and_empty_dispatch_are_noops ackedOnlyQueue "Z" 3 9 (by decide)

/-- Claim C9: across any trace of `add` / `pop` / `complete` / `sweep_in_flight` /
`show_in_flight` operations from an empty queue (with `add` always inserting a fresh
id, as the data model's id-uniqueness demands), the held ids stay duplicate-free —
every message lives in exactly one of `pending` / `in_flight`.  Moreover each
operation accounts for every id: a sweep (and hence a `pop`, which sweeps first)
removes exactly a set of entries each of which was acknowledged (`complete = true`)
or at the attempt limit, `complete` changes no ids, and `add` adds exactly one. -/
theorem C9_exclusive_message_residence (ops : List QueueOp) (name : String)
    (h : freshAdds ops (Lifo.create name) = true) :
    (idsOf (applyOps (Lifo.create name) ops)).Nodup ∧
    (∀ (q : Lifo) (t : Int), ∃ removed : List InflightMessage,
      (∀ x ∈ removed, x.complete = true ∨ Lifo.MAX_ATTEMPT ≤ x.msg.attempt) ∧
      (idsOf q).Perm (idsOf (q.sweep_in_flight t) ++ removed.map (fun x => x.msg.id))) ∧
    (∀ (q : Lifo) (cnt : Nat) (t : Int), ∃ removed : List InflightMessage,
      (∀ x ∈ removed, x.complete = true ∨ Lifo.MAX_ATTEMPT ≤ x.msg.attempt) ∧
      (idsOf q).Perm (idsOf ((q.pop cnt t).2) ++ removed.map (fun x => x.msg.id))) ∧
    (∀ (q : Lifo) (id : String), idsOf (q.complete id) = idsOf q) ∧
    (∀ (q : Lifo) (m : Message), (idsOf (q.add m)).Perm (m.id :: idsOf q)) :=
  ⟨applyOps_nodup ops (Lifo.create name) h (by simp [idsOf, Lifo.create, inflightIds]),
    sweep_removed, pop_removed, complete_ids, add_ids_perm⟩

/-- A sample trace: enqueue `A` and `B`, dispatch both, acknowledge `A`, sweep,
peek. -/
def demoOps : List QueueOp :=
  [QueueOp.add msgA, QueueOp.add msgB, QueueOp.pop 2 0, QueueOp.complete "A",
    QueueOp.sweep 5, QueueOp.show_in_flight 1]

theorem C9_witness :
    freshAdds demoOps (Lifo.create "jobs") = true ∧
      (idsOf (applyOps (Lifo.create "jobs") demoOps)).Nodup :=
  ⟨by decide, (C9_exclusive_message_residence demoOps "jobs" (by decide)).1⟩

/-- Claim C10: `pop 0` returns the empty vector but still performs the sweep, and the
sweep can genuinely mutate the queue (here it removes an acknowledged in-flight
entry), so dispatching zero messages is not a pure no-op. -/
theorem C10_pop_zero_still_sweeps :
    (∀ (q : Lifo) (t : Int), q.pop 0 t = ([], q.sweep_in_flight t)) ∧
      ackedOnlyQueue.pop 0 5 = ([], ackedOnlyQueue.sweep_in_flight 5) ∧
      ackedOnlyQueue.sweep_in_flight 5 ≠ ackedOnlyQueue := by
  refine ⟨fun q t => rfl, rfl, by decide⟩

/-! ### The RESP frame decoder (`src/resp_buffered_reader.rs`, `src/utils.rs`) -/

/-- `ASCII_LINE_FEED` from `src/constants.rs`. -/
def ASCII_LINE_FEED : Nat := 10

/-- `ASCII_CARRIAGE_RETURN` from `src/constants.rs`. -/
def ASCII_CARRIAGE_RETURN : Nat := 13

/-- `ASCII_ASTERISK` from `src/constants.rs`. -/
def ASCII_ASTERISK : Nat := 42

/-- Embeds `SerializeError` from `src/server.rs` (the `Utf8Error` payload of
`UnsupportedTextEncoding` is dropped: it carries no information the decoder ever
reads). -/
inductive SerializeError
  | IncompleteLine
  | MissingContentSize
  | IncompleteCommand
  | UnsupportedTextEncoding
  | UnreadableCommandSize
deriving DecidableEq

/-- Embeds `index_is_at_delimiter` from `src/utils.rs`: `index` is in bounds, at least
2, the byte there is LF and the previous byte is CR. -/
def index_is_at_delimiter (index : Nat) (buff : List Nat) : Bool :=
  decide (index < buff.length) && decide (2 ≤ index) &&
    (buff.getD index 0 == ASCII_LINE_FEED) &&
    (buff.getD (index - 1) 0 == ASCII_CARRIAGE_RETURN)

/-- The continuation condition of the `get_eol_index` loop in `src/utils.rs`:
`end < buff.len() - 1 && buff[end] != 0 && !index_is_at_delimiter(end, buff)`.
(The subtraction is `usize` arithmetic on a nonempty buffer at every call site;
`Nat` truncated subtraction agrees there.) -/
def eolCond (buff : List Nat) (e : Nat) : Bool :=
  decide (e < buff.length - 1) && (buff.getD e 0 != 0) && !(index_is_at_delimiter e buff)

/-- Fuel-indexed `get_eol_index` scan; the index advances while `eolCond` holds, so
`buff.length` fuel always suffices. -/
def eolGo (buff : List Nat) : Nat → Nat → Nat
  | 0, e => e
  | fuel + 1, e => if eolCond buff e then eolGo buff fuel (e + 1) else e

def getEolLoop (buff : List Nat) (start : Nat) : Nat := eolGo buff buff.length start

/-- Embeds `get_eol_index` from `src/utils.rs`. -/
def get_eol_index (start : Nat) (buff : List Nat) : Except SerializeError Nat :=
  let e := getEolLoop buff start
  if index_is_at_delimiter e buff then Except.ok e
  else Except.error SerializeError.IncompleteLine

/-- A UTF-8 continuation byte (`0x80..=0xBF`). -/
def utf8Cont (b : Nat) : Bool := decide (0x80 ≤ b) && decide (b ≤ 0xBF)

/-- Lead byte of a two-byte sequence (`0xC2..=0xDF`; `0xC0`/`0xC1` are overlong). -/
def utf8Len2 (b : Nat) : Bool := decide (0xC2 ≤ b) && decide (b ≤ 0xDF)

/-- Lead byte of a three-byte sequence (`0xE0..=0xEF`). -/
def utf8Len3 (b : Nat) : Bool := decide (0xE0 ≤ b) && decide (b ≤ 0xEF)

/-- Lead byte of a four-byte sequence (`0xF0..=0xF4`). -/
def utf8Len4 (b : Nat) : Bool := decide (0xF0 ≤ b) && decide (b ≤ 0xF4)

/-- Lower bound for the first continuation byte: `0xE0` forbids overlong forms
(`0xA0` minimum), `0xF0` likewise (`0x90`), all other leads allow `0x80`. -/
def utf8C1Lo (b : Nat) : Nat := if b == 0xE0 then 0xA0 else if b == 0xF0 then 0x90 else 0x80

/-- Upper bound for the first continuation byte: `0xED` excludes surrogates
(`0x9F` maximum), `0xF4` caps at `U+10FFFF` (`0x8F`), all other leads allow `0xBF`. -/
def utf8C1Hi (b : Nat) : Nat := if b == 0xED then 0x9F else if b == 0xF4 then 0x8F else 0xBF

/-- First continuation byte check, depending on the lead byte `b`. -/
def utf8C1ok (b c : Nat) : Bool := decide (utf8C1Lo b ≤ c) && decide (c ≤ utf8C1Hi b)

/-- Fuel-indexed UTF-8 validation.  Every step consumes at least one byte and one
unit of fuel, so the list length is always enough fuel; the fuel-exhausted case can
then only be reached on the empty list.  The continuation bytes of a multi-byte
sequence are read with `headD 0` under an explicit length guard (byte 0 fails every
continuation range, so the guard and the range checks agree). -/
def utf8Go : Nat → List Nat → Bool
  | 0, l => l.isEmpty
  | _ + 1, [] => true
  | fuel + 1, b :: rest =>
    if b < 0x80 then utf8Go fuel rest
    else if utf8Len2 b then
      utf8C1ok b (rest.headD 0) && decide (1 ≤ rest.length) && utf8Go fuel (rest.drop 1)
    else if utf8Len3 b then
      utf8C1ok b (rest.headD 0) && utf8Cont ((rest.drop 1).headD 0) &&
        decide (2 ≤ rest.length) && utf8Go fuel (rest.drop 2)
    else if utf8Len4 b then
      utf8C1ok b (rest.headD 0) && utf8Cont ((rest.drop 1).headD 0) &&
        utf8Cont ((rest.drop 2).headD 0) && decide (3 ≤ rest.length) &&
        utf8Go fuel (rest.drop 3)
    else false

/-- UTF-8 validity of a byte sequence, exactly the condition under which Rust's
`str::from_utf8` succeeds (RFC 3629: no overlong forms, no surrogates, maximum code
point `U+10FFFF`). -/
def utf8Valid (l : List Nat) : Bool := utf8Go l.length l

/-- The `usize` range bound on a 64-bit target (`usize::from_str` fails with
`PosOverflow` at `2^64`). -/
def usizeBound : Nat := 2 ^ 64

/-- The value of a decimal digit string (most significant digit first). -/
def digitsVal (ds : List Nat) : Nat := ds.foldl (fun a c => a * 10 + (c - 48)) 0

/-- Models Rust `str::parse::<N>` for an unsigned integer type with exclusive upper
bound `bound`, applied to the sequence of code points of the string: an optional
leading `+`, then one or more ASCII digits, and the value must lie below `bound`.
It is applied below directly to the *bytes* of a UTF-8-valid string, which agrees
with the char-level parse: one-byte sequences are exactly the ASCII characters,
longer sequences decode to code points at or above `0x80` (overlong encodings are
invalid), and every character the parser accepts (`+`, `0`-`9`) is ASCII. -/
def parseRustNat (cps : List Nat) (bound : Nat) : Option Nat :=
  let ds := if cps.headD 0 == 43 then cps.drop 1 else cps
  if ds.isEmpty then none
  else if ds.all (fun c => decide (48 ≤ c) && decide (c ≤ 57)) then
    if digitsVal ds < bound then some (digitsVal ds) else none
  else none

/-- Embeds `from_utf8_without_delimiter` from `src/utils.rs`: strip one trailing CRLF
if present (`buff_end - 2` is only evaluated when the delimiter check passed, which
forces `buff_end ≥ 2`), then require valid UTF-8.  Returns the validated content
bytes; the caller parses them (see `parseRustNat`). -/
def from_utf8_without_delimiter (buff : List Nat) : Except SerializeError (List Nat) :=
  let buff_end := buff.length - 1
  let buff_read_to := if index_is_at_delimiter buff_end buff then buff_end - 2 else buff_end
  let content := buff.take (buff_read_to + 1)
  if utf8Valid content then Except.ok content
  else Except.error SerializeError.UnsupportedTextEncoding

/-- Embeds `RespBufferedReader::first_line_eol` as a function of the `data` buffer:
fewer than 4 bytes or a first byte other than `*` is `IncompleteCommand`, otherwise
scan for the first line's delimiter. -/
def first_line_eol (data : List Nat) : Except SerializeError Nat :=
  if data.length < 4 ∨ data.getD 0 0 ≠ ASCII_ASTERISK then
    Except.error SerializeError.IncompleteCommand
  else get_eol_index 0 data

/-- Embeds the value computed by `RespBufferedReader::size` as a function of the
`data` buffer: slice `data[1..=eol]`, strip the delimiter, decode, parse as `usize`,
and return `cmd_size * 2 + 1` computed in `usize`, i.e. modulo `2^64`.  The wrap is
reachable: a header such as `*9223372036854775808\r\n` (22 bytes, `cmd_size = 2^63`)
makes the release-build multiplication wrap to `1` (a debug build panics on the same
input instead; the release semantics is modelled). -/
def sizeResult (data : List Nat) : Except SerializeError Nat :=
  match first_line_eol data with
  | Except.error e => Except.error e
  | Except.ok eol =>
    match from_utf8_without_delimiter ((data.drop 1).take eol) with
    | Except.error _ => Except.error SerializeError.UnsupportedTextEncoding
    | Except.ok first_line =>
      match parseRustNat first_line usizeBound with
      | none => Except.error SerializeError.UnreadableCommandSize
      | some cmd_size => Except.ok ((cmd_size * 2 + 1) % usizeBound)

/-- Embeds the `RespBufferedReader` struct (field for field). -/
structure RespBufferedReader where
  data : List Nat
  eol_exists : Bool
  size : Option Nat
  last_read_idx : Nat
  delimiter_cnt : Nat
  reached_end_of_msg : Bool
  read_index : Nat
deriving DecidableEq

/-- Embeds `RespBufferedReader::new` (`Default` zeroes every field). -/
def RespBufferedReader.new : RespBufferedReader :=
  { data := [], eol_exists := false, size := none, last_read_idx := 0,
    delimiter_cnt := 0, reached_end_of_msg := false, read_index := 0 }

/-- The continuation condition of the `all_lines_received` loop:
`last_read_idx + 1 < data.len() && delimiter_cnt < expected`. -/
def scanCond (data : List Nat) (expected lri cnt : Nat) : Bool :=
  decide (lri + 1 < data.length) && decide (cnt < expected)

/-- Fuel-indexed `all_lines_received` scan: advance `last_read_idx`, counting
delimiter positions, until the data or the expected count runs out.  The index
strictly increases and stays below `data.length`, so `data.length` fuel suffices. -/
def scanGo (data : List Nat) (expected : Nat) : Nat → Nat → Nat → Nat × Nat
  | 0, lri, cnt => (lri, cnt)
  | fuel + 1, lri, cnt =>
    if scanCond data expected lri cnt then
      scanGo data expected fuel (lri + 1)
        (if index_is_at_delimiter (lri + 1) data then cnt + 1 else cnt)
    else (lri, cnt)

def scanLoop (data : List Nat) (expected lri cnt : Nat) : Nat × Nat :=
  scanGo data expected data.length lri cnt

/-- Embeds `RespBufferedReader::all_lines_received`.  The Rust method mutates
`&mut self` and returns `Result<bool>`; here the updated reader is returned
alongside.  On the error path only `size()`'s failure propagates and no field
changes, exactly as in the source. -/
def RespBufferedReader.all_lines_received (r : RespBufferedReader) :
    Except SerializeError Bool × RespBufferedReader :=
  match sizeResult r.data with
  | Except.error e => (Except.error e, r)
  | Except.ok expected =>
    let r1 := { r with size := some expected }
    let p := scanLoop r1.data expected r1.last_read_idx r1.delimiter_cnt
    let reached := p.2 == expected
    (Except.ok reached,
      { r1 with last_read_idx := p.1, delimiter_cnt := p.2, reached_end_of_msg := reached })

/-- Embeds `RespBufferedReader::extend`: append the new bytes, then rescan. -/
def RespBufferedReader.extend (r : RespBufferedReader) (buff : List Nat) :
    Except SerializeError Bool × RespBufferedReader :=
  RespBufferedReader.all_lines_received { r with data := r.data ++ buff }

/-- Feeds a sequence of chunks to the reader by successive `extend` calls, keeping
the last call's result. -/
def feedChunks (r : RespBufferedReader) (chunks : List (List Nat)) :
    Except SerializeError Bool × RespBufferedReader :=
  chunks.foldl (fun acc c => RespBufferedReader.extend acc.2 c)
    (Except.ok r.reached_end_of_msg, r)

/-- The number of delimiter positions (`index_is_at_delimiter`) in a buffer. -/
def delimCount (data : List Nat) : Nat :=
  (List.range data.length).countP (fun i => index_is_at_delimiter i data)

/-! Fuel stability and step lemmas for the decoder loops -/

theorem eolGo_stop (buff : List Nat) (e : Nat) (h : eolCond buff e = false) :
    ∀ fuel, eolGo buff fuel e = e := by
  intro fuel
  cases fuel with
  | zero => rfl
  | succ f => simp [eolGo, h]

theorem eolGo_stable (buff : List Nat) :
    ∀ f g e, buff.length - 1 ≤ e + f → buff.length - 1 ≤ e + g →
      eolGo buff f e = eolGo buff g e := by
  intro f
  induction f with
  | zero =>
    intro g e hf _
    have hc : eolCond buff e = false := by
      simp only [eolCond, Bool.and_eq_false_iff]
      left; left
      simp only [decide_eq_false_iff_not]
      omega
    rw [eolGo_stop buff e hc g]
    rfl
  | succ f ih =>
    intro g e hf hg
    by_cases hc : eolCond buff e = true
    · have hlt : e < buff.length - 1 := by
        have := hc
        simp only [eolCond, Bool.and_eq_true, decide_eq_true_eq] at this
        exact this.1.1
      cases g with
      | zero =>
        exfalso
        omega
      | succ g =>
        simp only [eolGo, hc, if_true]
        exact ih g (e + 1) (by omega) (by omega)
    · rw [eolGo_stop buff e (Bool.eq_false_iff.mpr hc)]
      rw [eolGo_stop buff e (Bool.eq_false_iff.mpr hc)]

theorem getEolLoop_stop (buff : List Nat) (e : Nat) (h : eolCond buff e = false) :
    getEolLoop buff e = e :=
  eolGo_stop buff e h buff.length

theorem getEolLoop_step (buff : List Nat) (e : Nat) (h : eolCond buff e = true) :
    getEolLoop buff e = getEolLoop buff (e + 1) := by
  have hlt : e < buff.length - 1 := by
    simp only [eolCond, Bool.and_eq_true, decide_eq_true_eq] at h
    exact h.1.1
  cases hl : buff.length with
  | zero => omega
  | succ k =>
    show eolGo buff buff.length e = eolGo buff buff.length (e + 1)
    rw [hl]
    simp only [eolGo, h, if_true]
    exact eolGo_stable buff k (k + 1) (e + 1) (by omega) (by omega)

theorem scanGo_stop (data : List Nat) (v lri cnt : Nat)
    (h : scanCond data v lri cnt = false) :
    ∀ fuel, scanGo data v fuel lri cnt = (lri, cnt) := by
  intro fuel
  cases fuel with
  | zero => rfl
  | succ f => simp [scanGo, h]

theorem scanGo_stable (data : List Nat) (v : Nat) :
    ∀ f g lri cnt, data.length ≤ lri + 1 + f → data.length ≤ lri + 1 + g →
      scanGo data v f lri cnt = scanGo data v g lri cnt := by
  intro f
  induction f with
  | zero =>
    intro g lri cnt hf _
    have hc : scanCond data v lri cnt = false := by
      simp only [scanCond, Bool.and_eq_false_iff]
      left
      simp only [decide_eq_false_iff_not]
      omega
    rw [scanGo_stop data v lri cnt hc 0, scanGo_stop data v lri cnt hc g]
  | succ f ih =>
    intro g lri cnt hf hg
    by_cases hc : scanCond data v lri cnt = true
    · have hlt : lri + 1 < data.length := by
        simp only [scanCond, Bool.and_eq_true, decide_eq_true_eq] at hc
        exact hc.1
      cases g with
      | zero => omega
      | succ g =>
        simp only [scanGo, hc, if_true]
        exact ih g (lri + 1) _ (by omega) (by omega)
    · have hc2 : scanCond data v lri cnt = false := Bool.eq_false_iff.mpr hc
      rw [scanGo_stop data v lri cnt hc2 (f + 1), scanGo_stop data v lri cnt hc2 g]

theorem scanLoop_stop (data : List Nat) (v lri cnt : Nat)
    (h : scanCond data v lri cnt = false) :
    scanLoop data v lri cnt = (lri, cnt) :=
  scanGo_stop data v lri cnt h data.length

theorem scanLoop_step (data : List Nat) (v lri cnt : Nat)
    (h : scanCond data v lri cnt = true) :
    scanLoop data v lri cnt =
      scanLoop data v (lri + 1)
        (if index_is_at_delimiter (lri + 1) data then cnt + 1 else cnt) := by
  have hlt : lri + 1 < data.length := by
    simp only [scanCond, Bool.and_eq_true, decide_eq_true_eq] at h
    exact h.1
  cases hl : data.length with
  | zero => omega
  | succ k =>
    show scanGo data v data.length lri cnt = scanGo data v data.length (lri + 1) _
    rw [hl]
    simp only [scanGo, h, if_true]
    exact scanGo_stable data v k (k + 1) (lri + 1) _ (by omega) (by omega)

/-! Append stability: bytes already scanned are unaffected by later chunks -/

theorem delim_append (data more : List Nat) (i : Nat) (h : i < data.length) :
    index_is_at_delimiter i (data ++ more) = index_is_at_delimiter i data := by
  have h1 : (data ++ more).getD i 0 = data.getD i 0 := List.getD_append _ _ _ _ h
  have h2 : i - 1 < data.length := lt_of_le_of_lt (Nat.sub_le i 1) h
  have h3 : (data ++ more).getD (i - 1) 0 = data.getD (i - 1) 0 := List.getD_append _ _ _ _ h2
  have h4 : i < (data ++ more).length := by
    simp only [List.length_append]
    omega
  simp only [index_is_at_delimiter]
  rw [h1, h3, decide_eq_true h4, decide_eq_true h]

theorem eolCond_append_true (data more : List Nat) (e : Nat)
    (h : eolCond data e = true) : eolCond (data ++ more) e = true := by
  simp only [eolCond, Bool.and_eq_true, decide_eq_true_eq, bne_iff_ne, ne_eq,
    Bool.not_eq_true] at h ⊢
  obtain ⟨⟨h1, h2⟩, h3⟩ := h
  have he : e < data.length := by omega
  refine ⟨⟨?_, ?_⟩, ?_⟩
  · simp only [List.length_append]; omega
  · rw [List.getD_append _ _ _ _ he]; exact h2
  · rw [delim_append data more e he]; exact h3

theorem delim_of_getEolLoop_lt (data : List Nat) (s : Nat)
    (h : index_is_at_delimiter (getEolLoop data s) data = true) :
    getEolLoop data s < data.length := by
  simp only [index_is_at_delimiter, Bool.and_eq_true, decide_eq_true_eq] at h
  exact h.1.1.1

theorem getEolLoop_append (data more : List Nat) :
    ∀ s, index_is_at_delimiter (getEolLoop data s) data = true →
      getEolLoop (data ++ more) s = getEolLoop data s := by
  have main : ∀ n s, data.length - s ≤ n →
      index_is_at_delimiter (getEolLoop data s) data = true →
      getEolLoop (data ++ more) s = getEolLoop data s := by
    intro n
    induction n with
    | zero =>
      intro s hn h
      have hstop : eolCond data s = false := by
        simp only [eolCond, Bool.and_eq_false_iff]
        left; left
        simp only [decide_eq_false_iff_not]
        omega
      rw [getEolLoop_stop data s hstop] at h ⊢
      have hs : s < data.length := by
        simp only [index_is_at_delimiter, Bool.and_eq_true, decide_eq_true_eq] at h
        exact h.1.1.1
      omega
    | succ n ih =>
      intro s hn h
      by_cases hc : eolCond data s = true
      · have hlt : s < data.length - 1 := by
          simp only [eolCond, Bool.and_eq_true, decide_eq_true_eq] at hc
          exact hc.1.1
        rw [getEolLoop_step data s hc] at h
        rw [getEolLoop_step data s hc, getEolLoop_step (data ++ more) s
          (eolCond_append_true data more s hc)]
        exact ih (s + 1) (by omega) h
      · have hc2 : eolCond data s = false := Bool.eq_false_iff.mpr hc
        rw [getEolLoop_stop data s hc2] at h ⊢
        have hs : s < data.length := by
          simp only [index_is_at_delimiter, Bool.and_eq_true, decide_eq_true_eq] at h
          exact h.1.1.1
        have hc3 : eolCond (data ++ more) s = false := by
          simp only [eolCond, Bool.and_eq_false_iff]
          right
          rw [delim_append data more s hs, h]
          rfl
        exact getEolLoop_stop (data ++ more) s hc3
  intro s
  exact main (data.length - s) s le_rfl

theorem get_eol_index_append (data more : List Nat) (eol : Nat)
    (h : get_eol_index 0 data = Except.ok eol) :
    get_eol_index 0 (data ++ more) = Except.ok eol := by
  simp only [get_eol_index] at h ⊢
  by_cases hd : index_is_at_delimiter (getEolLoop data 0) data = true
  · have heq := getEolLoop_append data more 0 hd
    rw [heq]
    have hlt := delim_of_getEolLoop_lt data 0 hd
    rw [delim_append data more _ hlt, hd]
    rw [hd] at h
    simpa using h
  · rw [Bool.eq_false_iff.mpr hd] at h
    simp at h

theorem first_line_eol_append (data more : List Nat) (eol : Nat)
    (h : first_line_eol data = Except.ok eol) :
    first_line_eol (data ++ more) = Except.ok eol := by
  simp only [first_line_eol] at h ⊢
  by_cases hc : data.length < 4 ∨ data.getD 0 0 ≠ ASCII_ASTERISK
  · rw [if_pos hc] at h
    exact absurd h (by simp)
  · rw [if_neg hc] at h
    push_neg at hc
    have h0 : 0 < data.length := by omega
    rw [if_neg (by
      push_neg
      constructor
      · simp only [List.length_append]; omega
      · rw [List.getD_append _ _ _ _ h0]; exact hc.2)]
    exact get_eol_index_append data more eol h

theorem eol_lt_of_ok (data : List Nat) (eol : Nat)
    (h : get_eol_index 0 data = Except.ok eol) : eol < data.length := by
  simp only [get_eol_index] at h
  by_cases hd : index_is_at_delimiter (getEolLoop data 0) data = true
  · rw [hd] at h
    simp only [if_true, Except.ok.injEq] at h
    subst h
    exact delim_of_getEolLoop_lt data 0 hd
  · rw [Bool.eq_false_iff.mpr hd] at h
    simp at h

theorem first_line_eol_lt (data : List Nat) (eol : Nat)
    (h : first_line_eol data = Except.ok eol) : eol < data.length := by
  simp only [first_line_eol] at h
  split at h
  · exact absurd h (by simp)
  · exact eol_lt_of_ok data eol h

theorem sizeResult_ok_append (data more : List Nat) (v : Nat)
    (h : sizeResult data = Except.ok v) : sizeResult (data ++ more) = Except.ok v := by
  simp only [sizeResult] at h ⊢
  cases he : first_line_eol data with
  | error e => rw [he] at h; simp at h
  | ok eol =>
    rw [he] at h
    rw [first_line_eol_append data more eol he]
    have hlt := first_line_eol_lt data eol he
    have hslice : ((data ++ more).drop 1).take eol = (data.drop 1).take eol := by
      rw [List.drop_append_of_le_length (by omega)]
      exact List.take_append_of_le_length (by
        simp only [List.length_drop]
        omega)
    dsimp only at h ⊢
    rw [hslice]
    exact h
theorem scanLoop_append_fusion (data more : List Nat) (v : Nat) :
    ∀ lri cnt, scanLoop (data ++ more) v lri cnt =
      scanLoop (data ++ more) v (scanLoop data v lri cnt).1 (scanLoop data v lri cnt).2 := by
  have main : ∀ n lri cnt, data.length - lri ≤ n →
      scanLoop (data ++ more) v lri cnt =
        scanLoop (data ++ more) v (scanLoop data v lri cnt).1 (scanLoop data v lri cnt).2 := by
    intro n
    induction n with
    | zero =>
      intro lri cnt hn
      have hc : scanCond data v lri cnt = false := by
        simp only [scanCond, Bool.and_eq_false_iff]
        left
        simp only [decide_eq_false_iff_not]
        omega
      rw [scanLoop_stop data v lri cnt hc]
    | succ n ih =>
      intro lri cnt hn
      by_cases hc : scanCond data v lri cnt = true
      · have hlt : lri + 1 < data.length := by
          simp only [scanCond, Bool.and_eq_true, decide_eq_true_eq] at hc
          exact hc.1
        have hcnt : cnt < v := by
          simp only [scanCond, Bool.and_eq_true, decide_eq_true_eq] at hc
          exact hc.2
        have hc2 : scanCond (data ++ more) v lri cnt = true := by
          simp only [scanCond, Bool.and_eq_true, decide_eq_true_eq, List.length_append]
          exact ⟨by omega, hcnt⟩
        rw [scanLoop_step data v lri cnt hc, scanLoop_step (data ++ more) v lri cnt hc2,
          delim_append data more (lri + 1) hlt]
        exact ih (lri + 1) _ (by omega)
      · rw [scanLoop_stop data v lri cnt (Bool.eq_false_iff.mpr hc)]
  intro lri cnt
  exact main (data.length - lri) lri cnt le_rfl

/-- `extend` is a stream homomorphism: feeding two chunks in succession is the same
as feeding their concatenation, in both result and full reader state.  This is the
heart of chunking independence: the scan resumes at `last_read_idx` and never
recounts a delimiter, and the header, once complete, parses identically under any
later extension of the buffer. -/
theorem extend_extend (r : RespBufferedReader) (c1 c2 : List Nat) :
    ((r.extend c1).2).extend c2 = r.extend (c1 ++ c2) := by
  obtain ⟨d, eol, sz, lri, cnt, rem, ri⟩ := r
  simp only [RespBufferedReader.extend, RespBufferedReader.all_lines_received]
  cases h : sizeResult (d ++ c1) with
  | error e =>
    simp only [h]
    rw [List.append_assoc]
  | ok v =>
    have h2 : sizeResult ((d ++ c1) ++ c2) = Except.ok v := sizeResult_ok_append _ _ v h
    have h3 : sizeResult (d ++ (c1 ++ c2)) = Except.ok v := by
      rw [← List.append_assoc]
      exact h2
    simp only [h, h2, h3, scanLoop]
    rw [← List.append_assoc]
    have fusion := scanLoop_append_fusion (d ++ c1) c2 v lri cnt
    simp only [scanLoop] at fusion
    rw [← fusion]

theorem feedChunks_go (cs : List (List Nat)) :
    ∀ (r : RespBufferedReader) (c : List Nat),
      List.foldl (fun acc ch => RespBufferedReader.extend acc.2 ch) (r.extend c) cs =
        r.extend (c ++ cs.flatten) := by
  induction cs with
  | nil => intro r c; simp
  | cons c2 cs ih =>
    intro r c
    simp only [List.foldl_cons, List.flatten_cons]
    rw [extend_extend r c c2]
    rw [ih r (c ++ c2)]
    rw [List.append_assoc]

/-- Claim C4: chunking independence.  Feeding any nonempty partition of a byte
sequence to a fresh `RespBufferedReader` chunk by chunk through `extend` produces
exactly the same final result and reader state (same data, same
`reached_end_of_msg`, same `delimiter_cnt` — so no delimiter is ever counted
twice, and completion is reported at the same total byte count) as one `extend`
of the whole sequence. -/
theorem C4_chunking_independence (c : List Nat) (cs : List (List Nat)) :
    feedChunks RespBufferedReader.new (c :: cs) =
      RespBufferedReader.new.extend (List.flatten (c :: cs)) := by
  simp only [feedChunks, List.foldl_cons, List.flatten_cons]
  exact feedChunks_go cs RespBufferedReader.new c


theorem getEolLoop_run (buff : List Nat) :
    ∀ (s t : Nat), s ≤ t →
      (∀ i, s ≤ i → i < t → eolCond buff i = true) →
      eolCond buff t = false →
      getEolLoop buff s = t := by
  have main : ∀ n s t, t - s ≤ n → s ≤ t →
      (∀ i, s ≤ i → i < t → eolCond buff i = true) →
      eolCond buff t = false → getEolLoop buff s = t := by
    intro n
    induction n with
    | zero =>
      intro s t hn hst _ hstop
      have : s = t := by omega
      subst this
      exact getEolLoop_stop buff s hstop
    | succ n ih =>
      intro s t hn hst hcond hstop
      rcases Nat.eq_or_lt_of_le hst with heq | hlt
      · subst heq
        exact getEolLoop_stop buff s hstop
      · rw [getEolLoop_step buff s (hcond s le_rfl hlt)]
        exact ih (s + 1) t (by omega) hlt
          (fun i h1 h2 => hcond i (by omega) h2) hstop
  intro s t hst hcond hstop
  exact main (t - s) s t le_rfl hst hcond hstop

theorem utf8Go_of_ascii : ∀ (fuel : Nat) (l : List Nat), (∀ b ∈ l, b < 0x80) →
    l.length ≤ fuel → utf8Go fuel l = true := by
  intro fuel
  induction fuel with
  | zero =>
    intro l _ hl
    have : l = [] := List.length_eq_zero.mp (Nat.le_zero.mp hl)
    subst this
    rfl
  | succ fuel ih =>
    intro l h hl
    cases l with
    | nil => rfl
    | cons b rest =>
      have hb : b < 0x80 := h b (List.mem_cons_self b rest)
      simp only [utf8Go, if_pos hb]
      exact ih rest (fun x hx => h x (List.mem_cons_of_mem b hx))
        (by simpa using Nat.le_of_succ_le_succ hl)

theorem utf8Valid_of_ascii (l : List Nat) (h : ∀ b ∈ l, b < 0x80) : utf8Valid l = true :=
  utf8Go_of_ascii l.length l h le_rfl

/-- The bytes of a well-formed header frame `*<digits>\r\n<rest>`. -/
theorem header_getD (ds rest : List Nat) :
    ((42 :: ds ++ 13 :: 10 :: rest).getD 0 0 = 42) ∧
    (∀ j, j < ds.length → (42 :: ds ++ 13 :: 10 :: rest).getD (j + 1) 0 = ds.getD j 0) ∧
    ((42 :: ds ++ 13 :: 10 :: rest).getD (ds.length + 1) 0 = 13) ∧
    ((42 :: ds ++ 13 :: 10 :: rest).getD (ds.length + 2) 0 = 10) := by
  refine ⟨rfl, ?_, ?_, ?_⟩
  · intro j hj
    show (ds ++ 13 :: 10 :: rest).getD j 0 = ds.getD j 0
    exact List.getD_append _ _ _ _ hj
  · show (ds ++ 13 :: 10 :: rest).getD ds.length 0 = 13
    rw [List.getD_append_right _ _ _ _ le_rfl]
    simp
  · show (ds ++ 13 :: 10 :: rest).getD (ds.length + 1) 0 = 10
    rw [List.getD_append_right _ _ _ _ (by omega)]
    simp

theorem header_eol (ds rest : List Nat) (h1 : ds ≠ []) (h2 : ∀ b ∈ ds, 48 ≤ b ∧ b ≤ 57) :
    getEolLoop (42 :: ds ++ 13 :: 10 :: rest) 0 = ds.length + 2 ∧
      index_is_at_delimiter (ds.length + 2) (42 :: ds ++ 13 :: 10 :: rest) = true := by
  obtain ⟨g0, gd, g13, g10⟩ := header_getD ds rest
  have hlen : (42 :: ds ++ 13 :: 10 :: rest).length = ds.length + 3 + rest.length := by
    simp only [List.length_cons, List.length_append]
    omega
  have hds : 1 ≤ ds.length := by
    cases ds with
    | nil => exact absurd rfl h1
    | cons a l => simp
  have hdigit : ∀ j, j < ds.length → 48 ≤ ds.getD j 0 ∧ ds.getD j 0 ≤ 57 := by
    intro j hj
    have : ds.getD j 0 ∈ ds := by
      rw [List.getD_eq_getElem ds 0 hj]
      exact List.getElem_mem hj
    exact h2 _ this
  have hbyte : ∀ i, i < ds.length + 2 →
      (42 :: ds ++ 13 :: 10 :: rest).getD i 0 ≠ 0 ∧
      (42 :: ds ++ 13 :: 10 :: rest).getD i 0 ≠ 10 := by
    intro i hi
    cases i with
    | zero => rw [g0]; omega
    | succ j =>
      by_cases hj : j < ds.length
      · rw [gd j hj]
        have := hdigit j hj
        omega
      · have : j = ds.length := by omega
        subst this
        rw [g13]
        omega
  have hdelim : index_is_at_delimiter (ds.length + 2) (42 :: ds ++ 13 :: 10 :: rest) = true := by
    simp only [index_is_at_delimiter, Bool.and_eq_true, decide_eq_true_eq, beq_iff_eq,
      ASCII_LINE_FEED, ASCII_CARRIAGE_RETURN]
    refine ⟨⟨⟨?_, by omega⟩, g10⟩, ?_⟩
    · rw [hlen]
      omega
    · show (42 :: ds ++ 13 :: 10 :: rest).getD (ds.length + 2 - 1) 0 = 13
      have he : ds.length + 2 - 1 = ds.length + 1 := by omega
      rw [he]
      exact g13
  refine ⟨?_, hdelim⟩
  apply getEolLoop_run
  · omega
  · intro i _ hi
    obtain ⟨hnz, hnl⟩ := hbyte i hi
    simp only [eolCond, Bool.and_eq_true, decide_eq_true_eq, bne_iff_ne, ne_eq,
      Bool.not_eq_true']
    refine ⟨⟨?_, hnz⟩, ?_⟩
    · rw [hlen]
      omega
    · simp only [index_is_at_delimiter, Bool.and_eq_false_iff]
      left
      right
      simp only [beq_eq_false_iff_ne, ne_eq, ASCII_LINE_FEED]
      exact hnl
  · simp only [eolCond, Bool.and_eq_false_iff]
    right
    rw [hdelim]
    rfl

/-- Delimiter positions strictly after `lri` (the positions the scan has not yet
examined). -/
def delimsFrom (data : List Nat) (lri : Nat) : Nat :=
  (List.range' (lri + 1) (data.length - (lri + 1))).countP
    (fun i => index_is_at_delimiter i data)

theorem delimsFrom_zero (data : List Nat) (lri : Nat) (h : data.length ≤ lri + 1) :
    delimsFrom data lri = 0 := by
  unfold delimsFrom
  have : data.length - (lri + 1) = 0 := by omega
  rw [this]
  rfl

theorem delimsFrom_step (data : List Nat) (lri : Nat) (h : lri + 1 < data.length) :
    delimsFrom data lri =
      (if index_is_at_delimiter (lri + 1) data = true then 1 else 0) +
        delimsFrom data (lri + 1) := by
  unfold delimsFrom
  have h1 : data.length - (lri + 1) = (data.length - (lri + 2)) + 1 := by omega
  rw [h1, List.range'_succ, List.countP_cons]
  have h2 : lri + 1 + 1 = lri + 2 := rfl
  simp only [h2]
  by_cases hd : index_is_at_delimiter (lri + 1) data = true
  · simp only [hd, if_true]
    omega
  · simp [hd]

theorem scanLoop_cnt (data : List Nat) (v : Nat) :
    ∀ lri cnt, cnt ≤ v →
      (scanLoop data v lri cnt).2 = min v (cnt + delimsFrom data lri) := by
  have main : ∀ n lri cnt, data.length - lri ≤ n → cnt ≤ v →
      (scanLoop data v lri cnt).2 = min v (cnt + delimsFrom data lri) := by
    intro n
    induction n with
    | zero =>
      intro lri cnt hn hcv
      have hstop : scanCond data v lri cnt = false := by
        simp only [scanCond, Bool.and_eq_false_iff]
        left
        simp only [decide_eq_false_iff_not]
        omega
      rw [scanLoop_stop data v lri cnt hstop]
      rw [delimsFrom_zero data lri (by omega)]
      omega
    | succ n ih =>
      intro lri cnt hn hcv
      by_cases hc : scanCond data v lri cnt = true
      · have hlt : lri + 1 < data.length := by
          simp only [scanCond, Bool.and_eq_true, decide_eq_true_eq] at hc
          exact hc.1
        have hcnt : cnt < v := by
          simp only [scanCond, Bool.and_eq_true, decide_eq_true_eq] at hc
          exact hc.2
        rw [scanLoop_step data v lri cnt hc]
        rw [delimsFrom_step data lri hlt]
        by_cases hd : index_is_at_delimiter (lri + 1) data = true
        · rw [if_pos hd, if_pos hd]
          rw [ih (lri + 1) (cnt + 1) (by omega) (by omega)]
          have : cnt + 1 + delimsFrom data (lri + 1) = cnt + (1 + delimsFrom data (lri + 1)) := by
            omega
          rw [this]
        · rw [if_neg hd]
          rw [if_neg (by simpa using hd)]
          rw [ih (lri + 1) cnt (by omega) hcv]
          omega
      · have hc2 : scanCond data v lri cnt = false := Bool.eq_false_iff.mpr hc
        rw [scanLoop_stop data v lri cnt hc2]
        simp only [scanCond, Bool.and_eq_false_iff, decide_eq_false_iff_not] at hc2
        rcases hc2 with h | h
        · rw [delimsFrom_zero data lri (by omega)]
          omega
        · have : cnt = v := by omega
          subst this
          omega
  intro lri cnt
  exact main (data.length - lri) lri cnt le_rfl

theorem delimCount_eq_delimsFrom (data : List Nat) : delimCount data = delimsFrom data 0 := by
  unfold delimCount delimsFrom
  cases hl : data.length with
  | zero => rfl
  | succ k =>
    rw [List.range_eq_range']
    have hk : k + 1 - (0 + 1) = k := by omega
    rw [hk, List.range'_succ, List.countP_cons]
    have h0 : index_is_at_delimiter 0 data = false := by
      simp [index_is_at_delimiter]
    simp [h0]

theorem header_sizeResult (ds rest : List Nat) (h1 : ds ≠ [])
    (h2 : ∀ b ∈ ds, 48 ≤ b ∧ b ≤ 57) (hv : digitsVal ds < usizeBound) :
    sizeResult (42 :: ds ++ 13 :: 10 :: rest) =
      Except.ok ((digitsVal ds * 2 + 1) % usizeBound) := by
  obtain ⟨heol, hdelim⟩ := header_eol ds rest h1 h2
  have hds : 1 ≤ ds.length := by
    cases ds with
    | nil => exact absurd rfl h1
    | cons a l => simp
  have hlen : (42 :: ds ++ 13 :: 10 :: rest).length = ds.length + 3 + rest.length := by
    simp only [List.length_cons, List.length_append]
    omega
  have hfle : first_line_eol (42 :: ds ++ 13 :: 10 :: rest) = Except.ok (ds.length + 2) := by
    unfold first_line_eol
    rw [if_neg (by
      push_neg
      refine ⟨by rw [hlen]; omega, by rfl⟩)]
    unfold get_eol_index
    rw [heol]
    simp only [hdelim, if_true]
  have hslice : (((42 :: ds ++ 13 :: 10 :: rest).drop 1).take (ds.length + 2)) =
      ds ++ [13, 10] := by
    show ((ds ++ 13 :: 10 :: rest).take (ds.length + 2)) = ds ++ [13, 10]
    rw [List.take_append_eq_append_take]
    have hl1 : ds.take (ds.length + 2) = ds := List.take_of_length_le (by omega)
    have hl2 : ds.length + 2 - ds.length = 2 := by omega
    rw [hl1, hl2]
    rfl
  have hstrip : from_utf8_without_delimiter (ds ++ [13, 10]) = Except.ok ds := by
    unfold from_utf8_without_delimiter
    have hlen2 : (ds ++ [13, 10]).length = ds.length + 2 := by simp
    have hbe : (ds ++ [13, 10]).length - 1 = ds.length + 1 := by omega
    have hd10 : (ds ++ [13, 10]).getD (ds.length + 1) 0 = 10 := by
      rw [List.getD_append_right _ _ _ _ (by omega)]
      have : ds.length + 1 - ds.length = 1 := by omega
      rw [this]
      rfl
    have hd13 : (ds ++ [13, 10]).getD (ds.length + 1 - 1) 0 = 13 := by
      have h' : ds.length + 1 - 1 = ds.length := by omega
      rw [h', List.getD_append_right _ _ _ _ le_rfl]
      simp
    have hdel : index_is_at_delimiter ((ds ++ [13, 10]).length - 1) (ds ++ [13, 10]) = true := by
      rw [hbe]
      simp only [index_is_at_delimiter, Bool.and_eq_true, decide_eq_true_eq, beq_iff_eq,
        ASCII_LINE_FEED, ASCII_CARRIAGE_RETURN]
      refine ⟨⟨⟨by rw [hlen2]; omega, by omega⟩, hd10⟩, hd13⟩
    rw [hbe] at hdel
    simp only [hbe, hdel, if_true]
    have htake : (ds ++ [13, 10]).take (ds.length + 1 - 2 + 1) = ds := by
      have h' : ds.length + 1 - 2 + 1 = ds.length := by omega
      rw [h']
      rw [List.take_append_of_le_length le_rfl]
      exact List.take_length ds
    rw [htake]
    rw [utf8Valid_of_ascii ds (by
      intro b hb
      have := h2 b hb
      omega)]
    rfl
  have hparse : parseRustNat ds usizeBound = some (digitsVal ds) := by
    unfold parseRustNat
    cases ds with
    | nil => exact absurd rfl h1
    | cons d ds2 =>
      have hd : 48 ≤ d ∧ d ≤ 57 := h2 d (List.mem_cons_self d ds2)
      have hne43 : ((d :: ds2).headD 0 == 43) = false := by
        simp only [List.headD_cons, beq_eq_false_iff_ne, ne_eq]
        omega
      rw [hne43]
      simp only [if_false, Bool.false_eq_true]
      rw [if_neg (by simp)]
      rw [if_pos (by
        rw [List.all_eq_true]
        intro x hx
        have := h2 x hx
        simp only [Bool.and_eq_true, decide_eq_true_eq]
        omega)]
      rw [if_pos hv]
  unfold sizeResult
  rw [hfle]
  dsimp only
  rw [hslice, hstrip]
  dsimp only
  rw [hparse]

/-- Claim C5 as amended: for a frame whose header line is `*<digits>\r\n` (digits
denoting `N`, any value `usize` accepts, i.e. `N < 2^64`), `size` computes the
expected delimiter count `(N * 2 + 1) % 2^64` — which equals `N * 2 + 1` whenever
`N < 2^63`, so `*5` yields `11` — and `all_lines_received` (run through `extend` on
a fresh reader) reports the frame complete exactly when the buffer holds at least
that computed count of CRLF delimiter occurrences.  For `N ≥ 2^63` the `usize`
multiplication wraps (see the counterexample), so the computed count is not
`2N + 1` there.  (`index_is_at_delimiter` ignores positions 0 and 1, but no CRLF
can sit there in a frame that starts `*<digit>`.) -/
theorem C5_header_size_and_completion (ds rest : List Nat) (h1 : ds ≠ [])
    (h2 : ∀ b ∈ ds, 48 ≤ b ∧ b ≤ 57) (hv : digitsVal ds < usizeBound) :
    sizeResult (42 :: ds ++ 13 :: 10 :: rest) =
      Except.ok ((digitsVal ds * 2 + 1) % usizeBound) ∧
    (digitsVal ds < 2 ^ 63 →
      sizeResult (42 :: ds ++ 13 :: 10 :: rest) = Except.ok (digitsVal ds * 2 + 1)) ∧
    ((RespBufferedReader.new.extend (42 :: ds ++ 13 :: 10 :: rest)).1 = Except.ok true ↔
      (digitsVal ds * 2 + 1) % usizeBound ≤ delimCount (42 :: ds ++ 13 :: 10 :: rest)) ∧
    ((RespBufferedReader.new.extend (42 :: ds ++ 13 :: 10 :: rest)).2.reached_end_of_msg
        = true ↔
      (digitsVal ds * 2 + 1) % usizeBound ≤ delimCount (42 :: ds ++ 13 :: 10 :: rest)) := by
  have hsz := header_sizeResult ds rest h1 h2 hv
  have hmod : digitsVal ds < 2 ^ 63 →
      (digitsVal ds * 2 + 1) % usizeBound = digitsVal ds * 2 + 1 := by
    intro h3
    apply Nat.mod_eq_of_lt
    unfold usizeBound
    have hp : (2 : Nat) ^ 63 * 2 = 2 ^ 64 := by norm_num
    omega
  have hcnt : (scanLoop (42 :: ds ++ 13 :: 10 :: rest)
        ((digitsVal ds * 2 + 1) % usizeBound) 0 0).2 =
      min ((digitsVal ds * 2 + 1) % usizeBound)
        (delimCount (42 :: ds ++ 13 :: 10 :: rest)) := by
    rw [scanLoop_cnt _ _ 0 0 (by omega)]
    rw [delimCount_eq_delimsFrom, Nat.zero_add]
  refine ⟨hsz, fun h3 => by rw [hsz, hmod h3], ?_, ?_⟩
  · simp only [RespBufferedReader.extend, RespBufferedReader.all_lines_received,
      RespBufferedReader.new, List.nil_append, hsz]
    rw [hcnt]
    simp only [Except.ok.injEq, beq_iff_eq]
    exact min_eq_left_iff
  · simp only [RespBufferedReader.extend, RespBufferedReader.all_lines_received,
      RespBufferedReader.new, List.nil_append, hsz]
    rw [hcnt]
    simp only [beq_iff_eq]
    exact min_eq_left_iff

/-- The body of the repository's own `create_hello_cmd` test frame after the `*5\r\n`
header: `$5 hello $1 3 $4 auth $4 root $3 abc`, each line CRLF-terminated. -/
def helloRest : List Nat :=
  [36, 53, 13, 10, 104, 101, 108, 108, 111, 13, 10, 36, 49, 13, 10, 51, 13, 10,
   36, 52, 13, 10, 97, 117, 116, 104, 13, 10, 36, 52, 13, 10, 114, 111, 111, 116, 13, 10,
   36, 51, 13, 10, 97, 98, 99, 13, 10]

def helloFrame : List Nat := 42 :: [53] ++ 13 :: 10 :: helloRest

/-- The hello frame truncated inside its final line (drops the last CRLF, leaving ten
delimiter occurrences). -/
def helloPartialRest : List Nat := helloRest.take 45

def helloPartialFrame : List Nat := 42 :: [53] ++ 13 :: 10 :: helloPartialRest

theorem C5_witness :
    sizeResult helloFrame = Except.ok 11 ∧
    delimCount helloFrame = 11 ∧
    ((RespBufferedReader.new.extend helloFrame).1 = Except.ok true ↔
      11 ≤ delimCount helloFrame) ∧
    delimCount helloPartialFrame = 10 ∧
    ((RespBufferedReader.new.extend helloPartialFrame).1 = Except.ok true ↔
      11 ≤ delimCount helloPartialFrame) :=
  ⟨(C5_header_size_and_completion [53] helloRest (by decide) (by decide) (by decide)).2.1
      (by decide),
   by decide,
   (C5_header_size_and_completion [53] helloRest (by decide) (by decide) (by decide)).2.2.1,
   by decide,
   (C5_header_size_and_completion [53] helloPartialRest
     (by decide) (by decide) (by decide)).2.2.1⟩

deriving instance DecidableEq for Except

/-- The decimal digits of `2^63 = 9223372036854775808` as ASCII bytes. -/
def overflowDigits : List Nat :=
  [57, 50, 50, 51, 51, 55, 50, 48, 51, 54, 56, 53, 52, 55, 55, 53, 56, 48, 56]

/-- The 22-byte buffer holding only the header line `*9223372036854775808\r\n`. -/
def overflowHeaderFrame : List Nat := 42 :: overflowDigits ++ [13, 10]

/-- Claim C5, counterexample: the header `*9223372036854775808\r\n` carries the
valid non-negative integer `N = 2^63` (the `usize` parse accepts it), but the
`usize` computation `cmd_size * 2 + 1` wraps to `1` instead of `2N + 1 = 2^64 + 1`,
and the decoder then reports the frame complete after the single header CRLF —
with `1` delimiter, far fewer than `2N + 1` — so the claim is false as stated. -/
theorem C5_counterexample :
    digitsVal overflowDigits = 2 ^ 63 ∧
    parseRustNat overflowDigits usizeBound = some (2 ^ 63) ∧
    sizeResult overflowHeaderFrame = Except.ok 1 ∧
    (1 : Nat) ≠ 2 ^ 63 * 2 + 1 ∧
    delimCount overflowHeaderFrame = 1 ∧
    (RespBufferedReader.new.extend overflowHeaderFrame).1 = Except.ok true := by
  decide

/-- Claim C7, counterexample: `*\xFF\r\n` has its complete header line present
(`first_line_eol` succeeds) and its content (the byte `0xFF`) certainly does not
parse as a valid integer, yet `size` fails with `UnsupportedTextEncoding`, not
`UnreadableCommandSize` — the claim's error classification is wrong as stated. -/
theorem C7_counterexample :
    first_line_eol [42, 255, 13, 10] = Except.ok 3 ∧
    sizeResult [42, 255, 13, 10] = Except.error SerializeError.UnsupportedTextEncoding ∧
    SerializeError.UnsupportedTextEncoding ≠ SerializeError.UnreadableCommandSize := by
  decide

/-- Claim C7 as amended: (1) fewer than 4 bytes or a first byte other than `*`
always fails with `IncompleteCommand` (for `size` and for `extend`); (2) when the
scanner finds the complete header line and its content decodes as UTF-8 but does
not parse as a valid integer, the failure is `UnreadableCommandSize`; (3) header
content that is not valid UTF-8 fails with `UnsupportedTextEncoding` instead (and
a NUL byte before the delimiter makes the scanner itself fail with
`IncompleteLine`, covered by the `first_line_eol` hypothesis). -/
theorem C7_amended_error_classification :
    (∀ (data : List Nat), data.length < 4 ∨ data.getD 0 0 ≠ ASCII_ASTERISK →
      sizeResult data = Except.error SerializeError.IncompleteCommand) ∧
    (∀ (r : RespBufferedReader) (buff : List Nat),
      (r.data ++ buff).length < 4 ∨ (r.data ++ buff).getD 0 0 ≠ ASCII_ASTERISK →
      (r.extend buff).1 = Except.error SerializeError.IncompleteCommand) ∧
    (∀ (data : List Nat) (eol : Nat) (content : List Nat),
      first_line_eol data = Except.ok eol →
      from_utf8_without_delimiter ((data.drop 1).take eol) = Except.ok content →
      parseRustNat content usizeBound = none →
      sizeResult data = Except.error SerializeError.UnreadableCommandSize) ∧
    (∀ (data : List Nat) (eol : Nat),
      first_line_eol data = Except.ok eol →
      from_utf8_without_delimiter ((data.drop 1).take eol) =
        Except.error SerializeError.UnsupportedTextEncoding →
      sizeResult data = Except.error SerializeError.UnsupportedTextEncoding) := by
  refine ⟨?_, ?_, ?_, ?_⟩
  · intro data h
    unfold sizeResult first_line_eol
    rw [if_pos h]
  · intro r buff h
    have h2 : sizeResult (r.data ++ buff) = Except.error SerializeError.IncompleteCommand := by
      unfold sizeResult first_line_eol
      rw [if_pos h]
    simp only [RespBufferedReader.extend, RespBufferedReader.all_lines_received, h2]
  · intro data eol content h1 h2 h3
    unfold sizeResult
    rw [h1]
    dsimp only
    rw [h2]
    dsimp only
    rw [h3]
  · intro data eol h1 h2
    unfold sizeResult
    rw [h1]
    dsimp only
    rw [h2]

theorem C7_witness :
    sizeResult [42] = Except.error SerializeError.IncompleteCommand ∧
    (RespBufferedReader.new.extend [42]).1 = Except.error SerializeError.IncompleteCommand ∧
    sizeResult [42, 120, 13, 10] = Except.error SerializeError.UnreadableCommandSize ∧
    sizeResult [42, 255, 13, 10] = Except.error SerializeError.UnsupportedTextEncoding :=
  ⟨C7_amended_error_classification.1 [42] (by decide),
   C7_amended_error_classification.2.1 RespBufferedReader.new [42] (by decide),
   C7_amended_error_classification.2.2.1 [42, 120, 13, 10] 3 [120] (by decide) (by decide) (by decide),
   C7_amended_error_classification.2.2.2 [42, 255, 13, 10] 3 (by decide) (by decide)⟩

/-! ### The command parser (`src/resp.rs`)

Rust `String`s are UTF-8 byte sequences; the parser only ever compares whole tokens
against ASCII keywords, tests a leading `$`, and parses decimal digits, so it is
embedded at the byte level: a token is the `List Nat` of its bytes, and the
`String` payloads of `RespError` / `Cmd` are likewise byte lists.  All comparisons
agree byte-for-byte with the character-level Rust code. -/

/-- Embeds `RespError` from `src/resp.rs` (string payloads as UTF-8 bytes). -/
inductive RespError
  | InvalidPassword (s : List Nat)
  | CommandNotFound (s : List Nat)
  | IncompleteCommand
  | NoData
  | InvalidArgument (s : List Nat)
  | ProtocolOutOfRange (s : List Nat)
  | CmdNotImplemented (s : List Nat)
deriving DecidableEq

/-- Embeds the `CommandSet` enum. -/
inductive CommandSet
  | HELLO
  | PUSH
  | ACK
  | QUEUE
deriving DecidableEq

/-- Embeds the `HelloKeys` enum. -/
inductive HelloKeys
  | SETNAME
  | AUTH
  | PASSWORD
deriving DecidableEq

/-- strum's derived `FromStr` for `CommandSet`: exact, case-sensitive match of the
token against the variant name (as bytes: `HELLO`, `PUSH`, `ACK`, `QUEUE`). -/
def commandSetFromStr (s : List Nat) : Option CommandSet :=
  if s = [72, 69, 76, 76, 79] then some CommandSet.HELLO
  else if s = [80, 85, 83, 72] then some CommandSet.PUSH
  else if s = [65, 67, 75] then some CommandSet.ACK
  else if s = [81, 85, 69, 85, 69] then some CommandSet.QUEUE
  else none

/-- strum's derived `FromStr` for `HelloKeys` (`SETNAME`, `AUTH`, `PASSWORD`). -/
def helloKeysFromStr (s : List Nat) : Option HelloKeys :=
  if s = [83, 69, 84, 78, 65, 77, 69] then some HelloKeys.SETNAME
  else if s = [65, 85, 84, 72] then some HelloKeys.AUTH
  else if s = [80, 65, 83, 83, 87, 79, 82, 68] then some HelloKeys.PASSWORD
  else none

/-- Embeds the `Cmd` enum from `src/resp.rs` (string fields as UTF-8 bytes;
`protocol_version` is a `u8`). -/
inductive Cmd
  | LPOP (key : List Nat) (count : Nat)
  | LPUSH (key : List Nat) (elements : List (List Nat))
  | HELLO (auth : Option (List Nat)) (password : Option (List Nat))
      (protocol_version : Nat) (setname : Option (List Nat))
  | SADD (key : List Nat) (member : List (List Nat))
  | Unknown
deriving DecidableEq

/-- Rust `str::split("\r\n")` on the UTF-8 bytes: split at every non-overlapping
occurrence of `[13, 10]`, left to right, keeping empty tokens (in particular the
trailing empty token after a final CRLF). -/
def splitCrlfGo : List Nat → List Nat → List (List Nat)
  | [], acc => [acc.reverse]
  | 13 :: 10 :: rest, acc => acc.reverse :: splitCrlfGo rest []
  | b :: rest, acc => splitCrlfGo rest (b :: acc)

def split_crlf (data : List Nat) : List (List Nat) := splitCrlfGo data []

/-- Embeds `return_next`: pop the next token of the split stream, recursively
skipping tokens that start with `$` (byte 36, the bulk-string length lines); an
exhausted stream is `NoData`.  The Rust `Split` iterator is modelled as the list
of remaining tokens, returned alongside the popped one. -/
def return_next : List (List Nat) → Except RespError (List Nat × List (List Nat))
  | [] => Except.error RespError.NoData
  | v :: rest =>
    if v.headD 0 == 36 then return_next rest else Except.ok (v, rest)

/-- Embeds `get_protocol_version`: the next real token parsed as `u8`
(`parse::<u8>`, bound `2^8`); parse failure is `ProtocolOutOfRange`. -/
def get_protocol_version (payload : List (List Nat)) :
    Except RespError (Nat × List (List Nat)) :=
  match return_next payload with
  | Except.error e => Except.error e
  | Except.ok (raw_next, rest) =>
    match parseRustNat raw_next 256 with
    | some protocol_version => Except.ok (protocol_version, rest)
    | none => Except.error (RespError.ProtocolOutOfRange raw_next)

/-- The `while let (Some(key), Some(value)) = (payload.next(), payload.next())`
loop of `deserialize_auth`: consumes *raw* token pairs (note: no `$`-skipping
here), writing each recognized key's value into the corresponding field; an
unrecognized key fails with `InvalidArgument(value)`.  Fewer than two remaining
tokens ends the loop. -/
def helloArgsLoop :
    List (List Nat) → Option (List Nat) → Option (List Nat) → Option (List Nat) →
    Except RespError (Option (List Nat) × Option (List Nat) × Option (List Nat))
  | key :: value :: rest, auth, password, setname =>
    (match helloKeysFromStr key with
     | some HelloKeys.AUTH => helloArgsLoop rest (some value) password setname
     | some HelloKeys.SETNAME => helloArgsLoop rest auth password (some value)
     | some HelloKeys.PASSWORD => helloArgsLoop rest auth (some value) setname
     | none => Except.error (RespError.InvalidArgument value))
  | _, auth, password, setname => Except.ok (auth, password, setname)

/-- Embeds `deserialize_auth`. -/
def deserialize_auth (payload : List (List Nat)) : Except RespError Cmd :=
  match get_protocol_version payload with
  | Except.error e => Except.error e
  | Except.ok (protocol_version, rest) =>
    match helloArgsLoop rest none none none with
    | Except.error e => Except.error e
    | Except.ok (auth, password, setname) =>
      Except.ok (Cmd.HELLO auth password protocol_version setname)

/-- Embeds `map_command`: the first non-`$` token is the command keyword; unknown
keywords are `CommandNotFound`, the reserved `PUSH`/`ACK`/`QUEUE` keywords are
`CmdNotImplemented`, and `HELLO` continues with `deserialize_auth`. -/
def map_command (payload : List (List Nat)) : Except RespError Cmd :=
  match return_next payload with
  | Except.error e => Except.error e
  | Except.ok (first_word, rest) =>
    match commandSetFromStr first_word with
    | none => Except.error (RespError.CommandNotFound first_word)
    | some CommandSet.HELLO => deserialize_auth rest
    | some CommandSet.QUEUE => Except.error (RespError.CmdNotImplemented first_word)
    | some CommandSet.ACK => Except.error (RespError.CmdNotImplemented first_word)
    | some CommandSet.PUSH => Except.error (RespError.CmdNotImplemented first_word)

/-- Embeds `read_raw_cmd`: `write_to_utf8` (i.e. `String::from_utf8(data).unwrap()`,
which succeeds exactly on `utf8Valid` buffers — the frames at issue are ASCII),
then `split("\r\n")`, then `map_command`. -/
def read_raw_cmd (data : List Nat) : Except RespError Cmd :=
  map_command (split_crlf data)

/-- The complete RESP frame of claim C6: header `*5\r\n`, then the elements
`HELLO`, `3`, `AUTH`, `root`, `PASSWORD`, `abc`, each as a `$<len>` line followed
by a data line. -/
def helloCmdFrame : List Nat :=
  [42, 53, 13, 10,
   36, 53, 13, 10, 72, 69, 76, 76, 79, 13, 10,
   36, 49, 13, 10, 51, 13, 10,
   36, 52, 13, 10, 65, 85, 84, 72, 13, 10,
   36, 52, 13, 10, 114, 111, 111, 116, 13, 10,
   36, 56, 13, 10, 80, 65, 83, 83, 87, 79, 82, 68, 13, 10,
   36, 51, 13, 10, 97, 98, 99, 13, 10]

/-- Claim C6, behaviour of the code at the failing input.  The claimed round trip
fails: on the complete `HELLO 3 AUTH root PASSWORD abc` frame, `read_raw_cmd`
splits the whole payload (header line included) on CRLF, and `return_next` skips
only `$`-prefixed length lines — so the array header token `*5` is taken as the
command keyword and the parse aborts with `CommandNotFound "*5"` (bytes
`[42, 53]`), never `Ok(HELLO ...)`.  The second conjunct shows the parse still
fails even with the header token removed: `deserialize_auth` reads raw token
pairs without skipping `$` length lines, so the pair `("$4", "AUTH")` hits an
unrecognized key and errors with `InvalidArgument "AUTH"`. -/
theorem C6_hello_round_trip_fails :
    read_raw_cmd helloCmdFrame =
      Except.error (RespError.CommandNotFound [42, 53]) ∧
    map_command ((split_crlf helloCmdFrame).drop 1) =
      Except.error (RespError.InvalidArgument [65, 85, 84, 72]) ∧
    read_raw_cmd helloCmdFrame ≠
      Except.ok (Cmd.HELLO (some [114, 111, 111, 116]) (some [97, 98, 99]) 3 none) := by
  refine ⟨by decide, by decide, by decide⟩

end InfinityQ
